import Mathlib

/-!
# Verification of the aracari text-replacement library

This file is a shallow embedding, in Lean, of `src/utils.ts` and the
`Aracari` class of the aracari repository, together with theorems settling
the specification claims about it.

The embedding strategy:

* Strings are modelled as Lean `String` / `List Char`; all scanning is done
  on `List Char` with structural recursion so that every definition
  evaluates by kernel reduction (`decide` / `rfl`).
* The regular expressions built by the source are always *literal* search
  text (`escapeRegExp` escapes every metacharacter) surrounded by fixed
  delimiters, so their semantics is embedded directly as a matcher:
  `matchAt` is the semantics of the pattern produced by
  `createRegExpSearch` attempted at one position, and `findMatches` is the
  global (`g` flag) scan used by both `String.prototype.match` and
  `String.prototype.split` in `Aracari.replaceText`.
* The DOM is modelled by the inductive `DomNode` (text leaves carrying a
  string, elements carrying an ordered child list), which is exactly the
  capability set the source uses: `nodeType`, `childNodes`, `textContent`,
  `replaceWith`, and a text-node factory.
* `Aracari.replaceText` throws; this is embedded by returning
  `Option String × AracariState` (the error message, if any, together with
  the state after the call), so that "the throw happens before any
  mutation" is a provable statement rather than a modelling assumption.
-/

/-! ## Character classes (src/utils.ts lines 1-5)

`wordBoundaryChars = [".", "!", "?", "'", '"', "\\-", ",", "\\s"]`, i.e. the
character class `[.!?'"\-,\s]`.  `\s` in a JavaScript regular expression is
the ECMAScript whitespace class; it is reproduced here in full
(U+0009-U+000D, U+0020, U+00A0, U+1680, U+2000-U+200A, U+2028, U+2029,
U+202F, U+205F, U+3000, U+FEFF). -/

def isJsWhitespace (c : Char) : Bool :=
  (0x9 ≤ c.toNat && c.toNat ≤ 0xD) || c.toNat = 0x20 || c.toNat = 0xA0 ||
    c.toNat = 0x1680 || (0x2000 ≤ c.toNat && c.toNat ≤ 0x200A) ||
    c.toNat = 0x2028 || c.toNat = 0x2029 || c.toNat = 0x202F ||
    c.toNat = 0x205F || c.toNat = 0x3000 || c.toNat = 0xFEFF

def isBoundaryChar (c : Char) : Bool :=
  c = '.' || c = '!' || c = '?' || c = '\'' || c = '"' || c = '-' ||
    c = ',' || isJsWhitespace c

/-- The ECMAScript `\w` class `[A-Za-z0-9_]`, used by the `\b` assertions in
`Aracari.getMappingsForText` (src/utils.ts line 216-218). -/
def isWordChar (c : Char) : Bool :=
  c.isAlphanum || c = '_'

/-- ASCII lowering; the semantics of the `i` regular-expression flag for the
ASCII strings this library manipulates. -/
def jsLower (c : Char) : Char :=
  c.toLower

/-! ## The boundary-aware search pattern (src/utils.ts lines 21-30)

`createRegExpSearch search preserveWord` builds the pattern
`(?:^|[.!?'"\-,\s]) ESC(search) (?:$|[.!?'"\-,\s])` when `preserveWord` is
true, and the bare literal `ESC(search)` otherwise, with the `g` flag and no
`i` flag.  Because `escapeRegExp` makes the search text literal, the
pattern's semantics at a single start position is `matchAt` below; the
delimiters are non-capturing but *consume* one adjacent boundary character
when present.  Alternatives are attempted left to right (`^` before the
class, `$` before the class), as the ECMAScript engine does. -/

/-- `true` when index `i` of `T` holds a boundary-class character
(out-of-range indices hold none). -/
def boundaryAtIdx (T : List Char) (i : Nat) : Bool :=
  match T.get? i with
  | some c => isBoundaryChar c
  | none => false

/-- The pattern `(?:^|[B])S(?:$|[B])` attempted at start position `i` of
`T`; returns the end position of the match if one starts exactly at `i`. -/
def matchAtPW (T S : List Char) (i : Nat) : Option Nat :=
  let caret : Option Nat :=
    if i = 0 && S.isPrefixOf T then
      if S.length = T.length then some S.length
      else if boundaryAtIdx T S.length then some (S.length + 1)
      else none
    else none
  match caret with
  | some j => some j
  | none =>
    if boundaryAtIdx T i && S.isPrefixOf (T.drop (i + 1)) then
      let e := i + 1 + S.length
      if e = T.length then some e
      else if boundaryAtIdx T e then some (e + 1)
      else none
    else none

/-- Semantics of the pattern built by `createRegExpSearch`, attempted at one
start position `i`. -/
def matchAt (T S : List Char) (preserveWord : Bool) (i : Nat) : Option Nat :=
  if preserveWord then matchAtPW T S i
  else if S.isPrefixOf (T.drop i) && i ≤ T.length then some (i + S.length)
  else none

/-- The global (`g`-flag) scan: repeatedly find the leftmost match at or
after the current position; an empty match advances the position by one
(ECMAScript `AdvanceStringIndex`).  The fuel argument strictly exceeds the
number of candidate start positions, so it never runs out. -/
def scanMatches (T S : List Char) (preserveWord : Bool) :
    Nat → Nat → List (Nat × Nat)
  | 0, _ => []
  | fuel + 1, i =>
    if i > T.length then []
    else
      match matchAt T S preserveWord i with
      | some j => (i, j) :: scanMatches T S preserveWord fuel (max j (i + 1))
      | none => scanMatches T S preserveWord fuel (i + 1)

/-- All matches of the `createRegExpSearch` pattern in `T`, as
(start, end) spans, left to right, non-overlapping.  This is the match list
produced both by `node.textContent.match(pattern)` and (for the segment
boundaries) by `node.textContent.split(pattern)` in `Aracari.replaceText`. -/
def findMatches (T S : List Char) (preserveWord : Bool) : List (Nat × Nat) :=
  scanMatches T S preserveWord (T.length + 2) 0

/-- The characters of `T` from index `i` (inclusive) to `j` (exclusive). -/
def sliceL (T : List Char) (i j : Nat) : List Char :=
  (T.drop i).take (j - i)

/-- The matched strings, in order — the array `textMatch` of
`Aracari.replaceText` (src/utils.ts line 156). -/
def matchStringsOf (T : List Char) (spans : List (Nat × Nat)) : List String :=
  spans.map (fun sp => String.mk (sliceL T sp.1 sp.2))

/-- The content segments surrounding the matches — the array `contents`
produced by `node.textContent.split(pattern)` (src/utils.ts line 163).  For
`n` matches there are `n + 1` segments. -/
def segmentsOf (T : List Char) : Nat → List (Nat × Nat) → List String
  | pos, [] => [String.mk (T.drop pos)]
  | pos, sp :: rest => String.mk (sliceL T pos sp.1) :: segmentsOf T sp.2 rest

/-! ## String utilities (src/utils.ts lines 32-51) -/

/-- `getSurroundingChars` (src/utils.ts lines 32-40): the first character of
the match if it is a boundary character, and the last character of the match
if it is a boundary character. -/
def getSurroundingChars (matchText : String) : String × String :=
  let leadingChar : String :=
    match matchText.toList.head? with
    | some c => if isBoundaryChar c then String.mk [c] else ""
    | none => ""
  let endingChar : String :=
    match matchText.toList.getLast? with
    | some c => if isBoundaryChar c then String.mk [c] else ""
    | none => ""
  (leadingChar, endingChar)

/-- `joinArrayWith` (src/utils.ts lines 47-51): a `reduce` that joins the
strings of `arr`, calling `onJoin` with the index of the right-hand element
at each junction. -/
def joinArrayWith (arr : List String) (onJoin : Nat → String) : String :=
  (arr.foldl
    (fun (acc : String × Nat) cur =>
      (acc.1 ++ (if acc.2 = 0 then "" else onJoin acc.2) ++ cur, acc.2 + 1))
    ("", 0)).1

/-! ## The string-level core of `Aracari.replaceText`
(src/utils.ts lines 153-178)

Given the target node's text `T`, the search text `S`, the `preserveWord`
flag actually used for the pattern, and the `replacementIndex` `k`, this is
the prefix string (`preText + preChar`) and suffix string
(`postChar + postText`) the source computes around the replacement nodes,
or `none` when the pattern does not match and the source throws.

JavaScript index accesses past the end of `textMatch` yield `undefined`,
which `getSurroundingChars`'s regular-expression tests coerce to the string
`"undefined"`; the `getD ... "undefined"` defaults reproduce this (the
claims only ever use in-range indices, where the default is irrelevant). -/
def replacedPieces (T S : String) (preserveWord : Bool) (k : Nat) :
    Option (String × String) :=
  let Tl := T.toList
  let spans := findMatches Tl S.toList preserveWord
  match spans with
  | [] => none
  | _ :: _ =>
    let textMatch := matchStringsOf Tl spans
    let contents := segmentsOf Tl 0 spans
    let sur := getSurroundingChars (textMatch.getD k "undefined")
    let preText := joinArrayWith (contents.take (k + 1)) (fun nextIndex =>
      let s2 := getSurroundingChars (textMatch.getD (nextIndex - 1) "undefined")
      s2.1 ++ S ++ s2.2)
    let postText := joinArrayWith (contents.drop (k + 1)) (fun nextIndex =>
      let s2 := getSurroundingChars (textMatch.getD nextIndex "undefined")
      s2.1 ++ S ++ s2.2)
    some (preText ++ sur.1, sur.2 ++ postText)

/-- The full text of the target leaf after `Aracari.replaceText` rebuilds
it, with `repl` standing for the concatenated text of the replacement
nodes: prefix ++ repl ++ suffix, or `none` when the source throws. -/
def replacedText (T S : String) (preserveWord : Bool) (k : Nat)
    (repl : String) : Option String :=
  (replacedPieces T S preserveWord k).map (fun pr => pr.1 ++ repl ++ pr.2)

/-! ## The DOM model

The source consumes a minimal capability set from the host tree: a numeric
`nodeType` discriminator (text nodes have `Node.TEXT_NODE = 3`, elements
`1`), an ordered `childNodes` list, a `textContent` string (for an element,
the concatenation of its descendants' text), `replaceWith`, and
`document.createTextNode`. -/

inductive DomNode where
  | text : String → DomNode
  | element : List DomNode → DomNode
deriving Repr

/-- `node.childNodes`: a text node has no children. -/
def childNodesOf : DomNode → List DomNode
  | DomNode.text _ => []
  | DomNode.element cs => cs

/-- `node.nodeType`: `Node.TEXT_NODE = 3` for text nodes, `1` for
elements. -/
def nodeTypeOf : DomNode → Nat
  | DomNode.text _ => 3
  | DomNode.element _ => 1

/-- `node.textContent`: the node's own text, or the concatenation of its
descendants' text in document order. -/
def textContent : DomNode → String
  | DomNode.text s => s
  | DomNode.element cs => textContentList cs
where textContentList : List DomNode → String
  | [] => ""
  | c :: cs => textContent c ++ textContentList cs

/-- The address serialization: child indices joined with `"."`
(src/utils.ts line 242: `[...path, i].join(".")`). -/
def joinDots (path : List Nat) : String :=
  String.intercalate "." (path.map (fun n => toString n))

/-! ## `Aracari.getTextNodeMapping` (src/utils.ts lines 238-249)

A `flatMap` over `parent.childNodes` with index `i`: a child whose
`nodeType` equals the configured `textNodeType` emits one
`(textContent, address)` entry; otherwise a child with a non-empty
`childNodes` list is recursed into; all other children contribute nothing.
`mapNodeEntry` is the `flatMap` callback at one child, `mapChildNodes` the
indexed traversal of a child list. -/

mutual

def mapNodeEntry (tnt : Nat) (path : List Nat) (i : Nat) :
    DomNode → List (String × String)
  | DomNode.text s =>
      if 3 = tnt then [(s, joinDots (path ++ [i]))] else []
  | DomNode.element cs =>
      if 1 = tnt then
        [(textContent (DomNode.element cs), joinDots (path ++ [i]))]
      else if cs.length ≠ 0 then mapChildNodes tnt (path ++ [i]) 0 cs
      else []

def mapChildNodes (tnt : Nat) (path : List Nat) (i : Nat) :
    List DomNode → List (String × String)
  | [] => []
  | n :: rest => mapNodeEntry tnt path i n ++ mapChildNodes tnt path (i + 1) rest

end

/-- `Aracari.getTextNodeMapping(parent)` with the configured
`textNodeType`. -/
def getTextNodeMapping (tnt : Nat) (parent : DomNode) : List (String × String) :=
  mapChildNodes tnt [] 0 (childNodesOf parent)

/-! ## Address decoding and `Aracari.walkNodes`
(src/utils.ts lines 191-209) -/

/-- JavaScript `parseInt(s, 10)` on an address segment: the value of the
longest digit prefix, or `NaN` (modelled as `none`) when there is none. -/
def jsParseInt (s : String) : Option Nat :=
  let ds := s.toList.takeWhile Char.isDigit
  match ds with
  | [] => none
  | _ :: _ => some (ds.foldl (fun n c => n * 10 + (c.toNat - 48)) 0)

/-- JavaScript `address.split(".")`: the (possibly empty) runs of
characters between the dots; structurally recursive so it evaluates by
kernel reduction. -/
def splitOnDots (cs : List Char) (acc : List Char) : List String :=
  match cs with
  | [] => [String.mk acc.reverse]
  | c :: rest =>
      if c = '.' then String.mk acc.reverse :: splitOnDots rest []
      else splitOnDots rest (c :: acc)

/-- `address.split(".").map((i) => parseInt(i, 10))`
(src/utils.ts line 192). -/
def decodeAddress (address : String) : List (Option Nat) :=
  (splitOnDots address.toList []).map jsParseInt

/-- `Aracari.walkNodes` (src/utils.ts lines 198-209): follow the child
indices of `path` from `parent`; an exhausted path returns the current
node, and a missing parent or out-of-range index (including a `NaN`
segment, whose array access yields `undefined`) propagates `undefined`. -/
def walkNodes : Option DomNode → List (Option Nat) → Option DomNode
  | parent, [] => parent
  | none, _ :: _ => none
  | some parent, childNth :: rest =>
      walkNodes
        (match childNth with
         | some i => (childNodesOf parent).get? i
         | none => none)
        rest

/-- `Aracari.getNodeByAddress` (src/utils.ts lines 191-194). -/
def getNodeByAddress (root : Option DomNode) (address : String) : Option DomNode :=
  walkNodes root (decodeAddress address)

/-- Modelled from the spec: `resolveAddress(root, address)` "decodes the
address and walks the tree from `root`, following each successive child
index; returns the absent sentinel (not an error) if any index is out of
range or a path segment fails to resolve."  Stated over an already decoded
numeric path; compared with `walkNodes` in the C8 theorem. -/
def followPath : DomNode → List Nat → Option DomNode
  | t, [] => some t
  | t, i :: rest =>
      match (childNodesOf t).get? i with
      | some c => followPath c rest
      | none => none

/-! ## The tree mutation `node.replaceWith(...replacementNodes)`

The node being replaced was obtained by walking `path` from the root, so
the replacement is modelled as a path-directed splice: the node at `path`
is replaced, in its parent's child list, by the replacement list.  (Paths
that do not resolve cannot occur on the success path of `replaceText`;
the splice leaves the tree unchanged on them.) -/

mutual

def replaceNodeAt : DomNode → List (Option Nat) → List DomNode → DomNode
  | t, [], _ => t
  | DomNode.text s, _ :: _, _ => DomNode.text s
  | DomNode.element cs, none :: _, _ => DomNode.element cs
  | DomNode.element cs, some i :: rest, newNodes =>
      if rest.isEmpty then
        DomNode.element (cs.take i ++ newNodes ++ cs.drop (i + 1))
      else DomNode.element (replaceChildAt cs i rest newNodes)

def replaceChildAt : List DomNode → Nat → List (Option Nat) → List DomNode → List DomNode
  | [], _, _, _ => []
  | c :: cs, 0, rest, newNodes => replaceNodeAt c rest newNodes :: cs
  | c :: cs, n + 1, rest, newNodes => c :: replaceChildAt cs n rest newNodes

end

/-! ## The mapping lookups (src/utils.ts lines 89-126, 211-226)

`Aracari.getMappingsForText` builds the pattern
`\b ESC(text) \b` (when `preserveWord`) with flags
`` `${caseSensitive ? "i" : ""}g` `` — note that the source sets the
case-insensitivity flag `i` exactly when `caseSensitive` is **true** — and
filters the mapping to the entries whose text the pattern matches.
`mappingEntryMatches` embeds that pattern's semantics: an occurrence of the
(possibly case-folded) query, with ECMAScript `\b` word-boundary assertions
on both sides when `preserveWord` is set. -/

/-- The ECMAScript `\b` assertion at position `p` of `T`: exactly one of the
two surrounding positions holds a `\w` character (positions outside the
string hold none). -/
def wordBoundaryAt (T : List Char) (p : Nat) : Bool :=
  let before : Bool :=
    match p with
    | 0 => false
    | q + 1 =>
      match T.get? q with
      | some c => isWordChar c
      | none => false
  let after : Bool :=
    match T.get? p with
    | some c => isWordChar c
    | none => false
  before != after

/-- Whether the pattern of `Aracari.getMappingsForText` matches `entryText`:
the query occurs at some position, under `\b` assertions when
`preserveWord`, case-folded when the source's flags include `i` — which, in
the source as written, is when `caseSensitive` is `true`
(src/utils.ts line 219). -/
def mappingEntryMatches (entryText query : String)
    (caseSensitive preserveWord : Bool) : Bool :=
  let norm : String → List Char := fun s =>
    if caseSensitive then s.toList.map jsLower else s.toList
  let T := norm entryText
  let Q := norm query
  (List.range (T.length + 1)).any (fun p =>
    Q.isPrefixOf (T.drop p) &&
      (!preserveWord ||
        (wordBoundaryAt T p && wordBoundaryAt T (p + Q.length))))

/-- `Aracari.getMappingsForText` (src/utils.ts lines 211-222): filter the
mapping, preserving its order. -/
def getMappingsForText (mapping : List (String × String)) (text : String)
    (caseSensitive preserveWord : Bool) : List (String × String) :=
  mapping.filter (fun e => mappingEntryMatches e.1 text caseSensitive preserveWord)

/-- `Aracari.getAddressForText` (src/utils.ts lines 93-104): the address of
the first matching entry, or `null`. -/
def getAddressForText (mapping : List (String × String)) (text : String)
    (caseSensitive preserveWord : Bool) : Option String :=
  match getMappingsForText mapping text caseSensitive preserveWord with
  | [] => none
  | e :: _ => some e.2

/-- `Aracari.getAddressesForText` (src/utils.ts lines 106-117): the filter
result is an array — always truthy, even when empty — so its addresses are
always returned; the `null` branch of the source's conditional is dead. -/
def getAddressesForText (mapping : List (String × String)) (text : String)
    (caseSensitive preserveWord : Bool) : Option (List String) :=
  some ((getMappingsForText mapping text caseSensitive preserveWord).map
    (fun e => e.2))

/-- `Aracari.getTextByAddress` (src/utils.ts lines 119-122): the text of the
first mapping entry whose address is `address`, or `null`. -/
def getTextByAddress (mapping : List (String × String)) (address : String) :
    Option String :=
  match mapping.find? (fun e => e.2 = address) with
  | some e => some e.1
  | none => none

/-- `Aracari.isInSingleNode` (src/utils.ts lines 124-126):
`!!this.getAddressForText(text, caseSensitive)` — the double negation of
JavaScript string truthiness, which is false for `null` and for the empty
string. -/
def isInSingleNode (mapping : List (String × String)) (text : String)
    (caseSensitive : Bool) : Bool :=
  match getAddressForText mapping text caseSensitive false with
  | some a => !(a = "")
  | none => false

/-! ## The facade state and `Aracari.replaceText`
(src/utils.ts lines 70-189) -/

/-- The mutable fields of an `Aracari` instance: the optional tree root and
the cached mapping.  The configured `textNodeType` is the DOM default
`Node.TEXT_NODE = 3` and `createTextNode` the DOM text-node factory, as in
the source's constructor defaults. -/
structure AracariState where
  root : Option DomNode
  mapping : List (String × String)
deriving Repr

/-- `Aracari.getText` (src/utils.ts lines 89-91): the concatenation of the
mapping entries' text.  It reads only the cached mapping, never the tree. -/
def getText (s : AracariState) : String :=
  String.join (s.mapping.map (fun e => e.1))

/-- The options object of `Aracari.replaceText`; `atAddr` is the source's
`at` (a Lean keyword).  Absent members are `none`; the destructuring
defaults `replacementIndex = 0` and `caseSensitive = true` are applied by
the caller-facing wrapper below. -/
structure ReplaceOptions where
  atAddr : Option String := none
  preserveWord : Option Bool := none
  replacementIndex : Nat := 0
  caseSensitive : Bool := true

/-- The target-resolution step of `Aracari.replaceText`
(src/utils.ts lines 147-151): with a truthy `at` option (a non-empty
string), the decoded `at` path; otherwise `getTextNode`'s lookup
(src/utils.ts lines 128-132), which returns `null` unless
`getAddressForText` yields a truthy address.  The destructured
`preserveWord` option is passed through to `getTextNode`
(src/utils.ts line 150), whose parameter default `false` applies only when
the member is absent (`undefined`), so a given `preserveWord: true` makes
this lookup use the `\b`-delimited pattern.  Returns the decoded path whose
walk the source will mutate. -/
def targetPath (s : AracariState) (text : String) (o : ReplaceOptions) :
    Option (List (Option Nat)) :=
  match o.atAddr with
  | some a =>
      if a = "" then
        match getAddressForText s.mapping text o.caseSensitive
            (o.preserveWord.getD false) with
        | some addr => if addr = "" then none else some (decodeAddress addr)
        | none => none
      else some (decodeAddress a)
  | none =>
      match getAddressForText s.mapping text o.caseSensitive
          (o.preserveWord.getD false) with
      | some addr => if addr = "" then none else some (decodeAddress addr)
      | none => none

/-- The node `Aracari.replaceText` operates on, when it resolves. -/
def resolveTargetNode (s : AracariState) (text : String) (o : ReplaceOptions) :
    Option DomNode :=
  match targetPath s text o with
  | some path => walkNodes s.root path
  | none => none

/-- The error message of the source's `throw`
(src/utils.ts line 160): `node?.textContext` is a typo for a property that
never exists, so the interpolated description is always `"unknown"`. -/
def notFoundMessage (text : String) : String :=
  "Text \"" ++ text ++ "\" not found in node in unknown"

/-- `Aracari.replaceText` (src/utils.ts lines 134-184) as a state
transformer: the thrown error message (if any) together with the state
after the call.  `nodes` is the replacement node list (a single node is the
one-element list, as the source's `Array.isArray` branch normalizes).  The
throw happens before the tree mutation, so the error cases return the
incoming state; the success case splices the rebuilt node list — optional
prefix text node, the replacement nodes, optional suffix text node — in
place of the target, and does not touch `mapping`. -/
def replaceTextRun (s : AracariState) (text : String) (nodes : List DomNode)
    (o : ReplaceOptions) : Option String × AracariState :=
  match targetPath s text o with
  | none => (some (notFoundMessage text), s)
  | some path =>
    match walkNodes s.root path with
    | none => (some (notFoundMessage text), s)
    | some node =>
      let pw := o.preserveWord.getD true
      match replacedPieces (textContent node) text pw o.replacementIndex with
      | none => (some (notFoundMessage text), s)
      | some pieces =>
        let newNodes :=
          (if pieces.1 = "" then [] else [DomNode.text pieces.1]) ++ nodes ++
            (if pieces.2 = "" then [] else [DomNode.text pieces.2])
        (none,
          { s with
            root := s.root.map (fun r => replaceNodeAt r path newNodes) })

/-- `Aracari.remap` (src/utils.ts lines 186-189): adopt an explicitly
supplied mapping, or rebuild from the owned root (`this.root!`; rebuilding
with an absent root is a caller error and is modelled as the empty
rebuild). -/
def remapRun (s : AracariState) (m : Option (List (String × String))) :
    AracariState :=
  { s with
    mapping :=
      match m with
      | some mp => mp
      | none =>
        match s.root with
        | some r => getTextNodeMapping 3 r
        | none => [] }

/-- Case-sensitive substring occurrence, used to state what "the text
contains `s`" means in the claims. -/
def containsSubstr (hay needle : String) : Bool :=
  (List.range (hay.toList.length + 1)).any
    (fun p => needle.toList.isPrefixOf (hay.toList.drop p))

/-! ## Claim-side (specification) definitions

These definitions follow the specification's words, for comparison with the
source-derived definitions above. -/

/-- Modelled from the spec: "recursively visits `root`'s children in index
order.  For each child: if its type matches the configured 'text' marker,
emit one MappingEntry `(child.text, encode(path + [index]))`.  Otherwise,
if the child has children, recurse with the extended path" — the
depth-first, pre-order enumeration of the text leaves below a node, with
dot-joined child-index paths. -/
def specEnumList : List Nat → Nat → List DomNode → List (String × String)
  | _, _, [] => []
  | path, i, DomNode.text s :: rest =>
      (s, joinDots (path ++ [i])) :: specEnumList path (i + 1) rest
  | path, i, DomNode.element cs :: rest =>
      specEnumList (path ++ [i]) 0 cs ++ specEnumList path (i + 1) rest

/-- The pre-order text-leaf sequence below `t`, per the spec's words. -/
def specPreorderLeaves (t : DomNode) : List (String × String) :=
  specEnumList [] 0 (childNodesOf t)

/-- The source's mapping build agrees with the spec's pre-order leaf
enumeration on every child list, path prefix, and starting index. -/
theorem mapChildNodes_eq_spec :
    ∀ (cs : List DomNode) (path : List Nat) (i : Nat),
      mapChildNodes 3 path i cs = specEnumList path i cs
  | [], _, _ => by simp [mapChildNodes, specEnumList]
  | DomNode.text s :: rest, path, i => by
      rw [mapChildNodes, specEnumList, mapChildNodes_eq_spec rest]
      simp [mapNodeEntry]
  | DomNode.element cs :: rest, path, i => by
      rw [mapChildNodes, specEnumList, mapChildNodes_eq_spec rest path (i + 1)]
      congr 1
      by_cases h : cs.length = 0
      · rw [List.length_eq_zero] at h
        subst h
        simp [mapNodeEntry, specEnumList]
      · simp only [mapNodeEntry, if_neg (by decide : ¬(1 = 3)), ne_eq, h,
          not_false_iff, if_true]
        exact mapChildNodes_eq_spec cs (path ++ [i]) 0

/-! ## Helper lemmas -/

/-- `walkNodes` propagates an absent parent to an absent result for any
remaining path. -/
theorem walkNodes_none : ∀ (q : List (Option Nat)), walkNodes none q = none
  | [] => rfl
  | _ :: _ => rfl

/-- On a fully numeric path, `walkNodes` from a present root computes the
spec's child-index resolution. -/
theorem walkNodes_eq_followPath :
    ∀ (path : List Nat) (t : DomNode),
      walkNodes (some t) (path.map some) = followPath t path
  | [], t => rfl
  | i :: rest, t => by
      rw [List.map_cons, walkNodes, followPath]
      cases h : (childNodesOf t).get? i with
      | none => rw [walkNodes_none]
      | some c => exact walkNodes_eq_followPath rest c

/-! ## The claims -/

/-- C5: for every tree, the mapping built at construction (and rebuilt by a
mapping-less `remap()`) contains exactly one entry per text-typed leaf
node, in depth-first pre-order, each entry's address being the dot-joined
child-index path from the root to that leaf — i.e. the source's build
equals the spec's pre-order leaf enumeration.  The build is a pure function
of the tree, so rebuilding on an unchanged tree yields the identical
sequence, as the `remap` conjunct exhibits. -/
theorem claim_C5_mapping_is_preorder_leaves :
    ∀ (t : DomNode) (m : List (String × String)),
      getTextNodeMapping 3 t = specPreorderLeaves t ∧
      (remapRun { root := some t, mapping := m } none).mapping =
        specPreorderLeaves t := by
  intro t m
  refine ⟨?_, ?_⟩
  · exact mapChildNodes_eq_spec (childNodesOf t) [] 0
  · show getTextNodeMapping 3 t = specPreorderLeaves t
    exact mapChildNodes_eq_spec (childNodesOf t) [] 0

/-- C8: resolution by address is total and never errors: from a present
root, following a fully numeric path returns exactly the spec's child-index
resolution (the node reached, or the absent value when some index is out of
range at some depth), and an absent parent resolves to the absent value for
every remaining path. -/
theorem claim_C8_walk_is_total_resolution :
    ∀ (t : DomNode) (path : List Nat) (q : List (Option Nat)),
      walkNodes (some t) (path.map some) = followPath t path ∧
      walkNodes none q = none := by
  intro t path q
  exact ⟨walkNodes_eq_followPath path t, walkNodes_none q⟩

/-- C10: `getAddressesForText` never returns the absent value: it always
returns the list of addresses of the matching entries in mapping order,
the empty list (not `null`) when nothing matches — whereas
`getAddressForText` returns `null` exactly then. -/
theorem claim_C10_addresses_never_absent :
    ∀ (mapping : List (String × String)) (text : String)
      (cs pw : Bool),
      getAddressesForText mapping text cs pw =
        some ((getMappingsForText mapping text cs pw).map (fun e => e.2)) ∧
      (getMappingsForText mapping text cs pw = [] →
        getAddressesForText mapping text cs pw = some [] ∧
        getAddressForText mapping text cs pw = none) := by
  intro mapping text cs pw
  refine ⟨rfl, fun h => ⟨?_, ?_⟩⟩
  · rw [getAddressesForText, h]
    rfl
  · rw [getAddressForText, h]

/-- Witness for C10 at a concrete no-match input. -/
theorem claim_C10_addresses_never_absent_witness :
    getMappingsForText [("abc", "0")] "zzz" true false = [] ∧
    getAddressesForText [("abc", "0")] "zzz" true false = some [] ∧
    getAddressForText [("abc", "0")] "zzz" true false = none :=
  ⟨by decide,
    (claim_C10_addresses_never_absent [("abc", "0")] "zzz" true false).2
      (by decide)⟩

/-- C3 concerns case sensitivity of the lookups.  The code contradicts the
claim: `getMappingsForText` builds its pattern with flags
`` `${caseSensitive ? "i" : ""}g` `` (src/utils.ts line 219), so
`caseSensitive = true` turns case-insensitive matching **on** and
`caseSensitive = false` leaves it off — the reverse of the parameter's
meaning.  At the mapping `[("FOO", "0")]` and query `"foo"`:
with `caseSensitive = true` the differently-cased entry is returned (the
claim says it must not be), and with `caseSensitive = false` it is not
returned (the claim says case-insensitive matching must return it). -/
theorem claim_C3_case_flag_inverted_eval :
    getMappingsForText [("FOO", "0")] "foo" true false = [("FOO", "0")] ∧
    getAddressesForText [("FOO", "0")] "foo" true false = some ["0"] ∧
    getAddressForText [("FOO", "0")] "foo" true false = some "0" ∧
    getMappingsForText [("FOO", "0")] "foo" false false = [] ∧
    getAddressForText [("FOO", "0")] "foo" false false = none := by
  decide

/-- C6 asserts the round trip
`getTextByAddress(getAddressForText(s))` reproduces the leaf text
containing `s` whenever `s` occurs in exactly one entry.  Because of the
inverted case flag (see C3), the default `caseSensitive = true` lookup is
case-insensitive, so at mapping `[("FOO", "0"), ("foo", "1")]` and
`s = "foo"` — which occurs in exactly the second entry — the lookup
returns the first entry's address and the round trip produces `"FOO"`,
which does not contain `s`. -/
theorem claim_C6_roundtrip_breaks_eval :
    ((([("FOO", "0"), ("foo", "1")] : List (String × String)).filter
        (fun e => containsSubstr e.1 "foo")) = [("foo", "1")] ∧
      getAddressForText [("FOO", "0"), ("foo", "1")] "foo" true false =
        some "0") ∧
    getTextByAddress [("FOO", "0"), ("foo", "1")] "0" = some "FOO" ∧
    containsSubstr "FOO" "foo" = false := by
  decide

/-- C7 counterexample: `"toucan"` occurs in two mapping entries, so the
claim requires `isInSingleNode` to return `false`; the source returns
`true` (it only tests that the *first* match exists:
`!!this.getAddressForText(text, caseSensitive)`). -/
theorem claim_C7_counterexample :
    isInSingleNode [("toucans", "0"), ("toucanet", "1")] "toucan" true = true ∧
    (getMappingsForText [("toucans", "0"), ("toucanet", "1")] "toucan" true
        false).length = 2 := by
  decide

/-- C7 amended: provided every address in the mapping is non-empty (true of
every built mapping), `isInSingleNode(text, caseSensitive)` returns `true`
if and only if **at least one** mapping entry matches the search text under
the lookup pattern — it returns `false` when no entry matches, but `true`
even when several do. -/
theorem claim_C7_amended_at_least_one_match
    (mapping : List (String × String)) (text : String) (cs : Bool)
    (hne : ∀ e ∈ mapping, e.2 ≠ "") :
    isInSingleNode mapping text cs = true ↔
      ∃ e ∈ mapping, mappingEntryMatches e.1 text cs false = true := by
  rw [isInSingleNode, getAddressForText]
  cases h : getMappingsForText mapping text cs false with
  | nil =>
      simp only [Bool.false_eq_true, false_iff]
      rw [getMappingsForText, List.filter_eq_nil_iff] at h
      rintro ⟨e, he, hm⟩
      exact h e he hm
  | cons e rest =>
      have hmem : e ∈ getMappingsForText mapping text cs false := by
        rw [h]; exact List.mem_cons_self e rest
      rw [getMappingsForText, List.mem_filter] at hmem
      simp only [Bool.not_eq_true', decide_eq_false_iff_not,
        hne e hmem.1, not_false_iff, true_iff]
      exact ⟨e, hmem.1, hmem.2⟩

/-- Witness for C7's amended claim at a concrete input. -/
theorem claim_C7_amended_at_least_one_match_witness :
    isInSingleNode [("abc", "0")] "b" true = true :=
  (claim_C7_amended_at_least_one_match [("abc", "0")] "b" true
      (by decide)).mpr
    ⟨("abc", "0"), by decide, by decide⟩

/-- C9: `replaceText` never touches the cached mapping — whatever the
outcome of the call (success or `NotFound`), the state it returns carries
the same `mapping` field, and hence the same `getText()` value, as the
state it was given; only `remap` replaces the mapping. -/
theorem claim_C9_replace_preserves_mapping :
    ∀ (s : AracariState) (text : String) (nodes : List DomNode)
      (o : ReplaceOptions),
      (replaceTextRun s text nodes o).2.mapping = s.mapping ∧
      getText (replaceTextRun s text nodes o).2 = getText s := by
  intro s text nodes o
  have h : (replaceTextRun s text nodes o).2.mapping = s.mapping := by
    rw [replaceTextRun]
    split
    · rfl
    · split
      · rfl
      · dsimp only
        split
        · rfl
        · rfl
  exact ⟨h, by rw [getText, getText, h]⟩

/-- The string-level replace core fails exactly when the boundary-aware
pattern has no match in the target text. -/
theorem replacedPieces_eq_none_iff (T S : String) (pw : Bool) (k : Nat) :
    replacedPieces T S pw k = none ↔
      findMatches T.toList S.toList pw = [] := by
  rw [replacedPieces]
  cases h : findMatches T.toList S.toList pw with
  | nil => simp [h]
  | cons a l => simp [h]

/-- A `replaceText` call that throws (any error path: unresolved target or
no pattern match) returns the incoming state unchanged — the throw happens
before the tree mutation. -/
theorem replaceTextRun_error_unchanged
    (s : AracariState) (text : String) (nodes : List DomNode)
    (o : ReplaceOptions) :
    (replaceTextRun s text nodes o).1.isSome →
      (replaceTextRun s text nodes o).2 = s := by
  rw [replaceTextRun]
  split
  · intro _; rfl
  · split
    · intro _; rfl
    · dsimp only
      split
      · intro _; rfl
      · intro h; exact absurd h (by simp)

/-- C2: `replaceText` fails with NotFound exactly when the boundary-aware
pattern for the search text has no match in the resolved target node's
text; and whenever it fails — for that reason or because the target did
not even resolve — the returned state (tree and mapping, hence the value
of `getText()`) is the incoming state unchanged. -/
theorem claim_C2_notfound_iff_no_match :
    ∀ (s : AracariState) (text : String) (nodes : List DomNode)
      (o : ReplaceOptions) (node : DomNode),
      ((replaceTextRun s text nodes o).1.isSome →
        (replaceTextRun s text nodes o).2 = s) ∧
      (resolveTargetNode s text o = some node →
        ((replaceTextRun s text nodes o).1.isSome ↔
          findMatches (textContent node).toList text.toList
            (o.preserveWord.getD true) = [])) := by
  intro s text nodes o node
  refine ⟨replaceTextRun_error_unchanged s text nodes o, ?_⟩
  intro hres
  rw [resolveTargetNode] at hres
  cases hp : targetPath s text o with
  | none => rw [hp] at hres; exact absurd hres (by simp)
  | some path =>
    rw [hp] at hres
    dsimp only at hres
    rw [replaceTextRun, hp]
    dsimp only
    rw [hres]
    dsimp only
    cases hr : replacedPieces (textContent node) text
        (o.preserveWord.getD true) o.replacementIndex with
    | none =>
        simp only [Option.isSome_some, true_iff]
        exact (replacedPieces_eq_none_iff _ _ _ _).mp hr
    | some pieces =>
        simp only [Option.isSome_none, Bool.false_eq_true, false_iff]
        intro hm
        have hnone : replacedPieces (textContent node) text
            (o.preserveWord.getD true) o.replacementIndex = none :=
          (replacedPieces_eq_none_iff _ _ _ _).mpr hm
        rw [hr] at hnone
        exact Option.some_ne_none pieces hnone

/-- Witness for C2: a two-node tree whose only leaf reads `"hello"`, a
search for `"xyz"` targeted at address `"0"`; the target resolves, the
pattern has no match, the call errors, and the state is unchanged. -/
theorem claim_C2_notfound_iff_no_match_witness :
    resolveTargetNode
        { root := some (DomNode.element [DomNode.text "hello"]),
          mapping := [("hello", "0")] } "xyz" { atAddr := some "0" } =
      some (DomNode.text "hello") ∧
    ((replaceTextRun
        { root := some (DomNode.element [DomNode.text "hello"]),
          mapping := [("hello", "0")] } "xyz" [DomNode.text "Q"]
        { atAddr := some "0" }).1.isSome →
      (replaceTextRun
          { root := some (DomNode.element [DomNode.text "hello"]),
            mapping := [("hello", "0")] } "xyz" [DomNode.text "Q"]
          { atAddr := some "0" }).2 =
        { root := some (DomNode.element [DomNode.text "hello"]),
          mapping := [("hello", "0")] }) ∧
    ((replaceTextRun
        { root := some (DomNode.element [DomNode.text "hello"]),
          mapping := [("hello", "0")] } "xyz" [DomNode.text "Q"]
        { atAddr := some "0" }).1.isSome ↔
      findMatches (textContent (DomNode.text "hello")).toList "xyz".toList
        (({ atAddr := some "0" } : ReplaceOptions).preserveWord.getD true) =
        []) :=
  ⟨rfl,
    (claim_C2_notfound_iff_no_match
      { root := some (DomNode.element [DomNode.text "hello"]),
        mapping := [("hello", "0")] }
      "xyz" [DomNode.text "Q"] { atAddr := some "0" }
      (DomNode.text "hello")).1,
    (claim_C2_notfound_iff_no_match
      { root := some (DomNode.element [DomNode.text "hello"]),
        mapping := [("hello", "0")] }
      "xyz" [DomNode.text "Q"] { atAddr := some "0" }
      (DomNode.text "hello")).2 rfl⟩

/-- C1 asserts that `replaceText` at `replacementIndex` k substitutes only
the k-th occurrence and that every other character of the leaf's text —
including the boundary characters consumed by the other matches — survives
unchanged.  The claim's two concrete instances do hold (first two
conjuncts).  But in general the code is wrong: the suffix joiner reads
`textMatch[nextIndex]` (src/utils.ts line 171) where the match between the
suffix segments `nextIndex` and `nextIndex + 1` is
`textMatch[replacementIndex + nextIndex]`, so for `replacementIndex ≥ 1`
with at least two matches after the selected one, the *wrong* match's
boundary characters are reinserted.  Third conjunct: on
`"all  all  all"` (two spaces between occurrences), replacing match 1 of
`"all"` with `"XXX"` yields `"all  XXX  all "` — the trailing boundary of
match 1 (a space) is appended where the empty trailing boundary of match 2
belongs, so a character the claim requires to survive unchanged is
duplicated.  The claim-conformant result is `"all  XXX  all"`. -/
theorem claim_C1_replacement_index_eval :
    replacedText "all the foo people are all bar" "all" true 0 "todo" =
      some "todo the foo people are all bar" ∧
    replacedText "foo bar or foo bar" "foo bar" true 1 "baz qux" =
      some "foo bar or baz qux" ∧
    replacedText "all  all  all" "all" true 1 "XXX" =
      some "all  XXX  all " := by
  refine ⟨rfl, rfl, rfl⟩

/-! ## Lemmas for C4: what a preserve-word match consists of -/

/-- A list with a value at index `n` splits as that value consed onto the
remainder. -/
theorem drop_cons_of_get {l : List Char} {n : Nat} {c : Char}
    (h : l.get? n = some c) : l.drop n = c :: l.drop (n + 1) := by
  have hn : n < l.length := by
    by_contra hge
    rw [List.get?_eq_none.mpr (by omega)] at h
    exact Option.noConfusion h
  rw [List.drop_eq_getElem_cons hn]
  have hg : l[n] = c := by
    have he := List.get?_eq_getElem? l n
    rw [he, List.getElem?_eq_getElem hn] at h
    exact Option.some.inj h
  rw [hg]

theorem sliceL_self (T : List Char) (i : Nat) : sliceL T i i = [] := by
  simp [sliceL]

/-- Slices concatenate across an interior point. -/
theorem sliceL_append (T : List Char) {i m j : Nat} (h1 : i ≤ m) (h2 : m ≤ j) :
    sliceL T i j = sliceL T i m ++ sliceL T m j := by
  rw [sliceL, sliceL, sliceL]
  have hsplit : j - i = (m - i) + (j - m) := by omega
  rw [hsplit, List.take_add, List.drop_drop]
  have him : i + (m - i) = m := by omega
  rw [him]

/-- If `S` occurs at position `p` of `T` then the slice of its span is
`S` itself. -/
theorem sliceL_of_isPrefixOf {T S : List Char} {p : Nat}
    (h : S.isPrefixOf (T.drop p) = true) : sliceL T p (p + S.length) = S := by
  obtain ⟨t, ht⟩ := List.isPrefixOf_iff_prefix.mp h
  rw [sliceL]
  have hlen : p + S.length - p = S.length := by omega
  rw [hlen, ← ht, List.take_left]

theorem sliceL_singleton {T : List Char} {e : Nat} {c : Char}
    (h : T.get? e = some c) : sliceL T e (e + 1) = [c] := by
  rw [sliceL]
  have h1 : e + 1 - e = 1 := by omega
  rw [h1, drop_cons_of_get h]
  rfl

theorem boundaryAtIdx_elim {T : List Char} {i : Nat}
    (h : boundaryAtIdx T i = true) :
    ∃ c, T.get? i = some c ∧ isBoundaryChar c = true := by
  rw [boundaryAtIdx] at h
  cases hg : T.get? i with
  | none => rw [hg] at h; exact Bool.noConfusion h
  | some c => rw [hg] at h; exact ⟨c, rfl, h⟩

/-- Exhaustive description of the ways the preserve-word pattern can match
at start position `i`: the `^` alternative (at position 0) or a consumed
leading boundary character, each followed by the literal search text and
then the `$` alternative (end of string) or a consumed trailing boundary
character. -/
theorem matchAtPW_cases {T S : List Char} {i j : Nat}
    (h : matchAtPW T S i = some j) :
    (i = 0 ∧ S.isPrefixOf T = true ∧
      ((S.length = T.length ∧ j = S.length) ∨
        (boundaryAtIdx T S.length = true ∧ j = S.length + 1))) ∨
    (boundaryAtIdx T i = true ∧ S.isPrefixOf (T.drop (i + 1)) = true ∧
      ((i + 1 + S.length = T.length ∧ j = i + 1 + S.length) ∨
        (boundaryAtIdx T (i + 1 + S.length) = true ∧
          j = i + 1 + S.length + 1))) := by
  rw [matchAtPW] at h
  dsimp only at h
  split at h
  case _ j0 heq =>
    left
    rw [Option.some.injEq] at h
    subst h
    split at heq
    case _ hcond =>
      simp only [Bool.and_eq_true, decide_eq_true_eq] at hcond
      refine ⟨hcond.1, hcond.2, ?_⟩
      split at heq
      case _ hlen => left; exact ⟨hlen, (Option.some.injEq _ _).mp heq.symm ▸ rfl⟩
      case _ hlen =>
        split at heq
        case _ hb => right; exact ⟨hb, by cases heq; rfl⟩
        case _ hb => exact Option.noConfusion heq
    case _ hcond => exact Option.noConfusion heq
  case _ heq =>
    right
    split at h
    case _ hcond =>
      simp only [Bool.and_eq_true] at hcond
      refine ⟨hcond.1, hcond.2, ?_⟩
      split at h
      case _ hlen => left; exact ⟨hlen, by cases h; rfl⟩
      case _ hlen =>
        split at h
        case _ hb => right; exact ⟨hb, by cases h; rfl⟩
        case _ hb => exact Option.noConfusion h
    case _ hcond => exact Option.noConfusion h

/-- Every preserve-word match decomposes as an occurrence of the search
text, flanked by start-of-string or a boundary character on the left and
end-of-string or a boundary character on the right, with the consumed
lead/trail being exactly the adjacent boundary characters, verbatim. -/
theorem matchAtPW_decomp {T S : List Char} {i j : Nat}
    (h : matchAtPW T S i = some j) :
    ∃ p, i ≤ p ∧ p ≤ i + 1 ∧ S.isPrefixOf (T.drop p) = true ∧
      (p = 0 ∨ boundaryAtIdx T (p - 1) = true) ∧
      (p + S.length = T.length ∨ boundaryAtIdx T (p + S.length) = true) ∧
      sliceL T i j = sliceL T i p ++ S ++ sliceL T (p + S.length) j ∧
      (∀ c ∈ sliceL T i p, isBoundaryChar c = true) ∧
      (∀ c ∈ sliceL T (p + S.length) j, isBoundaryChar c = true) := by
  rcases matchAtPW_cases h with ⟨hi0, hpre, hsub⟩ | ⟨hb, hpre, hsub⟩
  · subst hi0
    have hpre0 : S.isPrefixOf (T.drop 0) = true := by simpa using hpre
    refine ⟨0, Nat.le_refl 0, Nat.zero_le 1, hpre0, Or.inl rfl, ?_, ?_, ?_, ?_⟩
    · rcases hsub with ⟨hlen, _⟩ | ⟨hb2, _⟩
      · exact Or.inl (by simpa using hlen)
      · exact Or.inr (by simpa using hb2)
    · rcases hsub with ⟨hlen, hj⟩ | ⟨hb2, hj⟩
      · subst hj
        rw [sliceL_self, Nat.zero_add]
        have hS := sliceL_of_isPrefixOf hpre0
        rw [Nat.zero_add] at hS
        rw [hS, sliceL_self]
        simp
      · subst hj
        obtain ⟨c, hget, hbc⟩ := boundaryAtIdx_elim hb2
        rw [sliceL_self, Nat.zero_add]
        rw [sliceL_append T (Nat.zero_le S.length) (Nat.le_succ S.length)]
        have hS := sliceL_of_isPrefixOf hpre0
        rw [Nat.zero_add] at hS
        rw [hS, sliceL_singleton hget]
        simp
    · rw [sliceL_self]
      intro c hc
      exact absurd hc (List.not_mem_nil c)
    · rcases hsub with ⟨hlen, hj⟩ | ⟨hb2, hj⟩
      · subst hj
        rw [Nat.zero_add, sliceL_self]
        intro c hc
        exact absurd hc (List.not_mem_nil c)
      · subst hj
        obtain ⟨c, hget, hbc⟩ := boundaryAtIdx_elim hb2
        rw [Nat.zero_add, sliceL_singleton hget]
        intro c2 hc2
        rw [List.mem_singleton] at hc2
        subst hc2
        exact hbc
  · obtain ⟨cb, hgetb, hbcb⟩ := boundaryAtIdx_elim hb
    have hp1 : i + 1 - 1 = i := by omega
    refine ⟨i + 1, Nat.le_succ i, Nat.le_refl (i + 1), hpre,
      Or.inr (by rw [hp1]; exact hb), ?_, ?_, ?_, ?_⟩
    · rcases hsub with ⟨hlen, _⟩ | ⟨hb2, _⟩
      · exact Or.inl hlen
      · exact Or.inr hb2
    · rcases hsub with ⟨hlen, hj⟩ | ⟨hb2, hj⟩
      · subst hj
        rw [sliceL_append T (Nat.le_succ i) (by omega : i + 1 ≤ i + 1 + S.length)]
        rw [sliceL_singleton hgetb, sliceL_of_isPrefixOf hpre, sliceL_self]
        simp
      · subst hj
        obtain ⟨c2, hget2, hbc2⟩ := boundaryAtIdx_elim hb2
        rw [sliceL_append T (Nat.le_succ i)
          (by omega : i + 1 ≤ i + 1 + S.length + 1)]
        rw [sliceL_append T (by omega : i + 1 ≤ i + 1 + S.length)
          (by omega : i + 1 + S.length ≤ i + 1 + S.length + 1)]
        rw [sliceL_singleton hgetb, sliceL_of_isPrefixOf hpre,
          sliceL_singleton hget2]
        simp
    · rw [sliceL_singleton hgetb]
      intro c2 hc2
      rw [List.mem_singleton] at hc2
      subst hc2
      exact hbcb
    · rcases hsub with ⟨hlen, hj⟩ | ⟨hb2, hj⟩
      · subst hj
        rw [sliceL_self]
        intro c hc
        exact absurd hc (List.not_mem_nil c)
      · subst hj
        obtain ⟨c2, hget2, hbc2⟩ := boundaryAtIdx_elim hb2
        rw [sliceL_singleton hget2]
        intro c3 hc3
        rw [List.mem_singleton] at hc3
        subst hc3
        exact hbc2

/-- Every span the global scan emits is a match of the pattern at its
start position. -/
theorem scanMatches_sound (T S : List Char) (pw : Bool) :
    ∀ (fuel i0 i j : Nat), (i, j) ∈ scanMatches T S pw fuel i0 →
      matchAt T S pw i = some j := by
  intro fuel
  induction fuel with
  | zero => intro i0 i j h; exact absurd h (List.not_mem_nil _)
  | succ fuel ih =>
    intro i0 i j h
    rw [scanMatches] at h
    by_cases hgt : i0 > T.length
    · rw [if_pos hgt] at h
      exact absurd h (List.not_mem_nil _)
    · rw [if_neg hgt] at h
      cases hm : matchAt T S pw i0 with
      | some j0 =>
          rw [hm] at h
          rcases List.mem_cons.mp h with heq | htail
          · cases heq
            exact hm
          · exact ih _ _ _ htail
      | none =>
          rw [hm] at h
          exact ih _ _ _ h

theorem findMatches_sound {T S : List Char} {i j : Nat}
    (h : (i, j) ∈ findMatches T S true) : matchAtPW T S i = some j := by
  have hs := scanMatches_sound T S true (T.length + 2) 0 i j h
  rw [matchAt, if_pos rfl] at hs
  exact hs

/-- C4: with `preserveWord`, `replaceText`'s pattern matches the search
text only when it is flanked by start/end of string or a boundary-class
character — never inside a larger word — and the consumed adjacent
boundary characters are exactly the flanking characters, carried verbatim
in the match (whence `getSurroundingChars` restores them around the
replacement).  Conjuncts two and three check the claim's concrete
instances: `"Done is the one thing."` (no match inside `"Done"`) and
`"foo-bar"` (hyphen preserved, neither consumed nor duplicated). -/
theorem claim_C4_preserve_word_boundary_matching :
    (∀ (T S : List Char) (i j : Nat), (i, j) ∈ findMatches T S true →
      ∃ p, i ≤ p ∧ p ≤ i + 1 ∧ S.isPrefixOf (T.drop p) = true ∧
        (p = 0 ∨ boundaryAtIdx T (p - 1) = true) ∧
        (p + S.length = T.length ∨ boundaryAtIdx T (p + S.length) = true) ∧
        sliceL T i j = sliceL T i p ++ S ++ sliceL T (p + S.length) j ∧
        (∀ c ∈ sliceL T i p, isBoundaryChar c = true) ∧
        (∀ c ∈ sliceL T (p + S.length) j, isBoundaryChar c = true)) ∧
    replacedText "Done is the one thing." "one" true 0 "uno" =
      some "Done is the uno thing." ∧
    replacedText "foo-bar" "foo" true 0 "baz" = some "baz-bar" := by
  refine ⟨?_, rfl, rfl⟩
  intro T S i j h
  exact matchAtPW_decomp (findMatches_sound h)

/-- Witness for C4's universally quantified conjunct, at the claim's own
instance: the single preserve-word match of `"one"` in
`"Done is the one thing."` spans positions 11-16. -/
theorem claim_C4_preserve_word_boundary_matching_witness :
    (11, 16) ∈ findMatches "Done is the one thing.".toList "one".toList true ∧
    ∃ p, 11 ≤ p ∧ p ≤ 11 + 1 ∧
      "one".toList.isPrefixOf ("Done is the one thing.".toList.drop p) = true ∧
      (p = 0 ∨ boundaryAtIdx "Done is the one thing.".toList (p - 1) = true) ∧
      (p + "one".toList.length = "Done is the one thing.".toList.length ∨
        boundaryAtIdx "Done is the one thing.".toList
          (p + "one".toList.length) = true) ∧
      sliceL "Done is the one thing.".toList 11 16 =
        sliceL "Done is the one thing.".toList 11 p ++ "one".toList ++
          sliceL "Done is the one thing.".toList (p + "one".toList.length) 16 ∧
      (∀ c ∈ sliceL "Done is the one thing.".toList 11 p,
        isBoundaryChar c = true) ∧
      (∀ c ∈ sliceL "Done is the one thing.".toList (p + "one".toList.length) 16,
        isBoundaryChar c = true) :=
  ⟨by decide,
    claim_C4_preserve_word_boundary_matching.1
      "Done is the one thing.".toList "one".toList 11 16 (by decide)⟩
